import Mathlib

/-!
Verification development for the rs-clean directory cleaner.

The repository contains two implementations of the scan/clean engine:

* `src/clean.rs` — a parallel walker (`ignore::WalkBuilder`) that computes
  sizes (`calculate_size`), accumulates freed bytes and a match count in
  atomic counters, prunes a matched directory via `WalkState::Skip`, and
  relies on the walk library's default filters (which skip entries whose
  file name begins with `.`).
* `src/main.rs` — a sequential walker (`walkdir::WalkDir`) with an explicit
  `filter_entry` that skips hidden names except the literal `.venv`, does
  not prune a matched directory (dry run descends into it), computes no
  sizes, and counts only successful deletions (`total_cleaned`).

Both variants share the rule table (`CLEAN_RULES`) and the indicator test
(`matches_indicator`) verbatim.  We embed the shared pieces once and embed
both traversals as instances of one walker parameterized by a `Policy`
capturing exactly the points where the two sources differ.

Filesystem trees are modelled first-order: a node is a regular file with an
apparent length (and a flag saying whether its metadata can be read), or a
directory with a flag saying whether it can be enumerated and a list of
named children.  A child name is `Option String`; `none` models a file name
that is absent or not valid UTF-8 (the sources resolve such names to `""`
with `unwrap_or("")`).  Positions in a tree are lists of child indices.
The scan root is modelled as a nameless directory: its parent lies outside
the modelled tree, so rules are evaluated on proper descendants (both
sources evaluate rules against `path.parent()`).
-/

mutual
/-- A filesystem node: a regular file (`len` = apparent length, `metaOk` =
whether `metadata()` succeeds) or a directory (`listable` = whether
`read_dir` succeeds). -/
inductive Fs where
  | file (len : Nat) (metaOk : Bool) : Fs
  | dir (listable : Bool) (children : Entries) : Fs

/-- The named children of a directory, in directory order.  A name of
`none` models a file name that is absent or not valid UTF-8. -/
inductive Entries where
  | nil : Entries
  | cons (name : Option String) (node : Fs) (rest : Entries) : Entries
end


/-- Look up the `i`-th child of an entry list. -/
def entriesGet : Entries → Nat → Option (Option String × Fs)
  | .nil, _ => none
  | .cons n t _, 0 => some (n, t)
  | .cons _ _ rest, i + 1 => entriesGet rest i

/-- Look up the entry at a position (list of child indices) below a node.
The empty position denotes the node itself and resolves to `none` (the
root carries no name in the model). -/
def entryAt : Fs → List Nat → Option (Option String × Fs)
  | _, [] => none
  | .file _ _, _ :: _ => none
  | .dir _ cs, i :: rest =>
    match entriesGet cs i with
    | none => none
    | some (n, t) => if rest = [] then some (n, t) else entryAt t rest

/-- Look up a position inside an entry list (used to state lemmas about the
walker's child loop). -/
def entriesAt (cs : Entries) : List Nat → Option (Option String × Fs)
  | [] => none
  | i :: rest =>
    match entriesGet cs i with
    | none => none
    | some (n, t) => if rest = [] then some (n, t) else entryAt t rest

/-- Resolve an optional file name the way both sources do:
`file_name().and_then(|n| n.to_str()).unwrap_or("")`. -/
def resolveName (n : Option String) : String := n.getD ""

/-- Whether a resolved file name begins with `'.'` (the hidden-name test of
`name.starts_with('.')` in `main.rs`, and the hidden filter applied by
default by the `ignore` walker used in `clean.rs`). -/
def dotName (n : Option String) : Bool :=
  match (resolveName n).toList with
  | '.' :: _ => true
  | _ => false

/-- Characters after the last `'.'` of a list, if any. -/
def extAfterDot : List Char → Option (List Char)
  | [] => none
  | c :: cs =>
    match extAfterDot cs with
    | some e => some e
    | none => if c = '.' then some cs else none

/-- Rust `Path::extension` on a file name: the portion after the last `'.'`,
unless the only `'.'` is the leading character (or there is none). -/
def pathExtension (name : String) : Option String :=
  match name.toList with
  | [] => none
  | _ :: rest => (extAfterDot rest).map (fun e => ⟨e⟩)

/-- Whether an indicator contains `'*'` (`indicator.contains('*')`). -/
def hasStar (ind : String) : Bool := ind.toList.contains '*'

/-- Rust `indicator.strip_prefix("*.")`: the extension of a `*.ext` glob. -/
def globExt (ind : String) : Option String :=
  match ind.toList with
  | '*' :: '.' :: rest => some ⟨rest⟩
  | _ => none

/-- Whether some entry of the list has the given path extension (the loop
body of the glob branch of `matches_indicator`; `read_dir` yields every
kind of entry, so no file-type test is performed). -/
def entriesAnyExt : Entries → Option String → Bool
  | .nil, _ => false
  | .cons n _ rest, e =>
    (match e, n with
     | some ext, some nm => pathExtension nm == some ext
     | _, _ => false) || entriesAnyExt rest e

/-- Whether an entry with exactly the given name exists in the list
(`parent.join(indicator).exists()`; a stat succeeds for any entry kind
whether or not the parent can be enumerated). -/
def entriesHasName : Entries → String → Bool
  | .nil, _ => false
  | .cons n _ rest, s => n == some s || entriesHasName rest s

/-- Source: `matches_indicator(parent, indicator)` (identical in
`src/clean.rs` lines 53–68 and `src/main.rs` lines 104–119).  A glob
indicator scans one `read_dir` listing of the parent (errors give `false`);
an exact indicator is a single existence check. -/
def matches_indicator (parent : Fs) (indicator : String) : Bool :=
  if hasStar indicator then
    match parent with
    | .dir true cs => entriesAnyExt cs (globExt indicator)
    | _ => false
  else
    match parent with
    | .dir _ cs => entriesHasName cs indicator
    | _ => false

/-- Source: one entry of the static `CLEAN_RULES` table. -/
structure CleanRule where
  folder_name : String
  project_indicator : Option String
  description : String

/-- Source: the `CLEAN_RULES` table (identical in both variants). -/
def CLEAN_RULES : List CleanRule := [
  ⟨"node_modules", some "package.json", "Node.js dependencies"⟩,
  ⟨"target", some "Cargo.toml", "Rust build artifacts"⟩,
  ⟨"vendor", some "composer.json", "PHP dependencies"⟩,
  ⟨"venv", none, "Python virtual environment"⟩,
  ⟨".venv", none, "Python virtual environment"⟩,
  ⟨"bin", some "*.csproj", ".NET build output"⟩,
  ⟨"obj", some "*.csproj", ".NET intermediate output"⟩]

/-- Source: the `should_clean` computation — an absent indicator always
matches, a present one is tested against the parent. -/
def should_clean (parent : Fs) : Option String → Bool
  | some ind => matches_indicator parent ind
  | none => true

/-- The rule loop of both walkers: iterate `CLEAN_RULES` in order, and for
the first rule whose `folder_name` equals the directory's resolved name and
whose indicator is satisfied against the parent, return that rule's index. -/
def ruleFirstMatchAux (fn : String) (parent : Fs) : List CleanRule → Nat → Option Nat
  | [], _ => none
  | r :: rs, i =>
    if fn == r.folder_name then
      if should_clean parent r.project_indicator then some i
      else ruleFirstMatchAux fn parent rs (i + 1)
    else ruleFirstMatchAux fn parent rs (i + 1)

/-- First matching rule (index into `CLEAN_RULES`) for a directory with the
given resolved name, indicators tested against `parent`. -/
def ruleFirstMatch (fn : String) (parent : Fs) : Option Nat :=
  ruleFirstMatchAux fn parent CLEAN_RULES 0

mutual
/-- Source: `calculate_size` (`src/clean.rs` lines 71–84).  The size walk
uses the same `ignore` walker defaults as the scan, so entries whose name
begins with `.` are skipped (the walker also honours ignore files, which we
do not model); files whose metadata cannot be read contribute 0, and a
directory that cannot be enumerated contributes nothing beyond itself. -/
def calculate_size : Fs → Nat
  | .file len metaOk => if metaOk then len else 0
  | .dir listable cs => if listable then sizeEntries cs else 0

/-- Child loop of `calculate_size`: hidden-named entries are skipped by the
walker's default filters. -/
def sizeEntries : Entries → Nat
  | .nil => 0
  | .cons n t rest => (if dotName n then 0 else calculate_size t) + sizeEntries rest
end

mutual
/-- Modelled from the spec: the sum of the apparent lengths of every
regular file under a path — directories contribute 0 directly, a file whose
metadata cannot be read contributes 0, and a directory that cannot be
enumerated contributes nothing beyond itself.  Unlike `calculate_size`, no
entry is filtered by name. -/
def totalFileSize : Fs → Nat
  | .file len metaOk => if metaOk then len else 0
  | .dir listable cs => if listable then totalEntries cs else 0

/-- Child loop of `totalFileSize`: every child counts. -/
def totalEntries : Entries → Nat
  | .nil => 0
  | .cons _ t rest => totalFileSize t + totalEntries rest
end

mutual
/-- Whether no entry anywhere in a tree has a name beginning with `'.'`. -/
def noHidden : Fs → Bool
  | .file _ _ => true
  | .dir _ cs => noHiddenEntries cs

/-- Entry-list form of `noHidden`. -/
def noHiddenEntries : Entries → Bool
  | .nil => true
  | .cons n t rest => !dotName n && noHidden t && noHiddenEntries rest
end

/-- One match found by a walker: position of the matched directory, index
of the rule that fired, and the size computed for it (0 for the sequential
variant, which computes no sizes). -/
structure MatchRec where
  path : List Nat
  ruleIdx : Nat
  size : Nat
deriving DecidableEq, Repr

/-- Accumulated observable output of a walk: matches found (in discovery
order), paths whose deletion failed, bytes added to the freed counter,
number of successful deletions, and every position visited by the walker. -/
structure WOut where
  recs : List MatchRec
  fails : List (List Nat)
  freed : Nat
  cleaned : Nat
  visited : List (List Nat)
deriving DecidableEq, Repr

/-- The points where the two walkers differ.  `skipName` is the entry
filter (the `ignore` walker's default hidden filter for `clean.rs`, the
explicit `filter_entry` closure for `main.rs`); `descendMatched` says
whether the walk continues into a matched directory that still exists
(never for `clean.rs`, which returns `WalkState::Skip`; always for
`main.rs`, which has no pruning); `useSize` says whether a match's size is
computed (`clean.rs` only). -/
structure Policy where
  skipName : Option String → Bool
  descendMatched : Bool
  useSize : Bool

/-- The parallel walker of `src/clean.rs` lines 110–174: default hidden
filter, prune on match (`WalkState::Skip`), sizes computed. -/
def parPolicy : Policy := ⟨fun n => dotName n, false, true⟩

/-- The sequential walker of `src/main.rs` lines 143–185: `filter_entry`
keeps an entry iff `!name.starts_with('.') || name == ".venv"`, a matched
directory that still exists is descended into, no sizes are computed. -/
def seqPolicy : Policy := ⟨fun n => dotName n && !(resolveName n == ".venv"), true, false⟩

mutual
/-- Visit of one entry with name `n` and node `t`, inside parent directory
`p`, at position `pos`.  Mirrors the per-entry closure of both walkers:
directories are resolved to a name, run through the rule loop, and on a
match the size is computed, the deletion attempted in force mode (`delOk`
says whether `remove_dir_all` succeeds; a failure leaves the subtree in
place), and the subtree pruned exactly when it was removed or the policy
prunes.  The second component is the entry's node after the visit (`none`
if it was deleted). -/
def walkVisit (pol : Policy) (force : Bool) (delOk : List Nat → Bool)
    (p : Fs) (n : Option String) (t : Fs) (pos : List Nat) : WOut × Option Fs :=
  match t with
  | .file len metaOk => (⟨[], [], 0, 0, [pos]⟩, some (.file len metaOk))
  | .dir listable cs =>
    match ruleFirstMatch (resolveName n) p with
    | some ridx =>
      let sz := if pol.useSize then calculate_size (.dir listable cs) else 0
      if force then
        if delOk pos then
          (⟨[⟨pos, ridx, sz⟩], [], sz, 1, [pos]⟩, none)
        else
          if pol.descendMatched && listable then
            let c := walkChildren pol force delOk (.dir listable cs) cs pos 0
            (⟨⟨pos, ridx, sz⟩ :: c.1.recs, pos :: c.1.fails, c.1.freed, c.1.cleaned,
              pos :: c.1.visited⟩, some (.dir listable c.2))
          else
            (⟨[⟨pos, ridx, sz⟩], [pos], 0, 0, [pos]⟩, some (.dir listable cs))
      else
        if pol.descendMatched && listable then
          let c := walkChildren pol force delOk (.dir listable cs) cs pos 0
          (⟨⟨pos, ridx, sz⟩ :: c.1.recs, c.1.fails, sz + c.1.freed, c.1.cleaned,
            pos :: c.1.visited⟩, some (.dir listable c.2))
        else
          (⟨[⟨pos, ridx, sz⟩], [], sz, 0, [pos]⟩, some (.dir listable cs))
    | none =>
      if listable then
        let c := walkChildren pol force delOk (.dir listable cs) cs pos 0
        (⟨c.1.recs, c.1.fails, c.1.freed, c.1.cleaned, pos :: c.1.visited⟩,
         some (.dir listable c.2))
      else
        (⟨[], [], 0, 0, [pos]⟩, some (.dir listable cs))

/-- Child loop of a walk: `cs` are the remaining children of directory `p`
at position `pos`, `k` is the index of the first of them.  Entries rejected
by the policy's filter are not visited at all (and keep their subtree);
deleted entries are dropped from the resulting listing. -/
def walkChildren (pol : Policy) (force : Bool) (delOk : List Nat → Bool)
    (p : Fs) (cs : Entries) (pos : List Nat) (k : Nat) : WOut × Entries :=
  match cs with
  | .nil => (⟨[], [], 0, 0, []⟩, .nil)
  | .cons n t rest =>
    let restOut := walkChildren pol force delOk p rest pos (k + 1)
    if pol.skipName n then
      (restOut.1, .cons n t restOut.2)
    else
      let v := walkVisit pol force delOk p n t (pos ++ [k])
      match v.2 with
      | some t' =>
        (⟨v.1.recs ++ restOut.1.recs, v.1.fails ++ restOut.1.fails,
          v.1.freed + restOut.1.freed, v.1.cleaned + restOut.1.cleaned,
          v.1.visited ++ restOut.1.visited⟩, .cons n t' restOut.2)
      | none =>
        (⟨v.1.recs ++ restOut.1.recs, v.1.fails ++ restOut.1.fails,
          v.1.freed + restOut.1.freed, v.1.cleaned + restOut.1.cleaned,
          v.1.visited ++ restOut.1.visited⟩, restOut.2)
end

/-- A whole scan of a root directory: the walker yields the root itself
(position `[]`, never matched — its parent lies outside the tree) and then
walks its children.  The second component is the tree after the scan. -/
def runScan (pol : Policy) (force : Bool) (delOk : List Nat → Bool) (root : Fs) :
    WOut × Fs :=
  match root with
  | .dir true cs =>
    let c := walkChildren pol force delOk (.dir true cs) cs [] 0
    (⟨c.1.recs, c.1.fails, c.1.freed, c.1.cleaned, [] :: c.1.visited⟩, .dir true c.2)
  | t => (⟨[], [], 0, 0, [[]]⟩, t)

/-- The two fatal root errors of `clean_projects`, reported with distinct
messages before any traversal. -/
inductive PathErr where
  | missing
  | notDir
deriving DecidableEq, Repr

/-- Observable outcome of one `clean` invocation: the root error if any,
the walk output, the resulting tree, and the process exit status. -/
structure RunOut where
  pathError : Option PathErr
  out : WOut
  tree : Option Fs
  exitCode : Nat

/-- Source: `main`/`clean_projects` (`src/main.rs` lines 86–192, with the
same root checks in `src/clean.rs` lines 86–98).  A missing root
(modelled as `none`) and a non-directory root are reported as distinct
errors and no traversal happens; otherwise the walk runs.  `main` returns
`()` in every case, so the process exit status is 0 throughout. -/
def rs_clean_main (pol : Policy) (force : Bool) (delOk : List Nat → Bool)
    (root : Option Fs) : RunOut :=
  match root with
  | none => ⟨some .missing, ⟨[], [], 0, 0, []⟩, none, 0⟩
  | some (.file len metaOk) => ⟨some .notDir, ⟨[], [], 0, 0, []⟩, some (.file len metaOk), 0⟩
  | some (.dir listable cs) =>
    let s := runScan pol force delOk (.dir listable cs)
    ⟨none, s.1, some s.2, 0⟩

/-- Total bytes of a list of match records (the additive aggregate). -/
def sumSizes (l : List MatchRec) : Nat := (l.map MatchRec.size).sum

/-- Position `q` lies inside (or at) position `p`. -/
def posUnder (p q : List Nat) : Prop := ∃ s, q = p ++ s

/-- Position `q` lies strictly inside position `p`. -/
def posStrictUnder (p q : List Nat) : Prop := ∃ s, s ≠ [] ∧ q = p ++ s

/-- A deletion oracle under which every `remove_dir_all` fails. -/
def noDel : List Nat → Bool := fun _ => false

/-- A deletion oracle under which every `remove_dir_all` succeeds. -/
def allDel : List Nat → Bool := fun _ => true

/-- Membership of a named node in an entry list. -/
def entryMemP (nm : Option String) (node : Fs) : Entries → Prop
  | .nil => False
  | .cons n t rest => (nm = n ∧ node = t) ∨ entryMemP nm node rest

/-- Modelled from the spec: at least one regular *file* (not merely an
entry) with the given extension exists directly in the listing — the
reading under which claim C8 states the glob test. -/
def anyFileWithExt : Entries → String → Bool
  | .nil, _ => false
  | .cons n t rest, ext =>
    (match t, n with
     | .file _ _, some nm => pathExtension nm == some ext
     | _, _ => false) || anyFileWithExt rest ext

/-- Remove every entry with the given name from a listing (deleting the
indicator file). -/
def eraseNamed : Entries → String → Entries
  | .nil, _ => .nil
  | .cons n t rest, s =>
    if n == some s then eraseNamed rest s else .cons n t (eraseNamed rest s)

/-- Joint structural induction principle for `Fs` and `Entries`. -/
theorem fsInd (P : Fs → Prop) (Q : Entries → Prop)
    (hfile : ∀ len metaOk, P (.file len metaOk))
    (hdir : ∀ listable cs, Q cs → P (.dir listable cs))
    (hnil : Q .nil)
    (hcons : ∀ n t rest, P t → Q rest → Q (.cons n t rest)) :
    (∀ t, P t) ∧ (∀ cs, Q cs) :=
  ⟨fun t => Fs.rec hfile hdir hnil hcons t, fun cs => Entries.rec hfile hdir hnil hcons cs⟩

theorem posUnder_refl (p : List Nat) : posUnder p p := ⟨[], by simp⟩

theorem posUnder_extend (p s : List Nat) : posUnder p (p ++ s) := ⟨s, rfl⟩

theorem posUnder_trans {p q r : List Nat} (h₁ : posUnder p q) (h₂ : posUnder q r) :
    posUnder p r := by
  obtain ⟨s, rfl⟩ := h₁
  obtain ⟨u, rfl⟩ := h₂
  exact ⟨s ++ u, by simp⟩

theorem posUnder_length {p q : List Nat} (h : posUnder p q) : p.length ≤ q.length := by
  obtain ⟨s, rfl⟩ := h
  simp

theorem posStrictUnder_length {p q : List Nat} (h : posStrictUnder p q) :
    p.length < q.length := by
  obtain ⟨s, hs, rfl⟩ := h
  have hpos : 0 < s.length := List.length_pos.mpr hs
  rw [List.length_append]
  omega

theorem posStrictUnder_posUnder {p q : List Nat} (h : posStrictUnder p q) : posUnder p q := by
  obtain ⟨s, _, rfl⟩ := h
  exact ⟨s, rfl⟩

theorem posUnder_eq_of_length {p q : List Nat} (h : posUnder p q)
    (hl : q.length ≤ p.length) : p = q := by
  obtain ⟨s, rfl⟩ := h
  cases s with
  | nil => simp
  | cons a l =>
    exfalso
    rw [List.length_append, List.length_cons] at hl
    omega

theorem posUnder_idx {pos : List Nat} {i j : Nat} {w : List Nat}
    (hi : posUnder (pos ++ [i]) w) (hj : posUnder (pos ++ [j]) w) : i = j := by
  obtain ⟨s, hs⟩ := hi
  obtain ⟨u, hu⟩ := hj
  rw [hs] at hu
  rw [List.append_assoc, List.append_assoc] at hu
  have h2 : [i] ++ s = [j] ++ u := List.append_cancel_left hu
  simpa using congrArg (fun l => l.headD 0) h2

theorem not_strict_under_of_le {p q : List Nat} (hl : q.length ≤ p.length) :
    ¬ posStrictUnder p q := fun h => by
  have := posStrictUnder_length h
  omega

/-- Every position visited by the walk of one entry lies at or under that
entry's position; in the child loop, under `pos ++ [j]` for some `j ≥ k`. -/
theorem walk_visited_under :
    (∀ t : Fs, ∀ pol force delOk p n pos,
      ∀ v ∈ (walkVisit pol force delOk p n t pos).1.visited, posUnder pos v) ∧
    (∀ cs : Entries, ∀ pol force delOk p pos k,
      ∀ v ∈ (walkChildren pol force delOk p cs pos k).1.visited,
        ∃ j, k ≤ j ∧ posUnder (pos ++ [j]) v) := by
  refine fsInd _ _ ?_ ?_ ?_ ?_
  · intro len metaOk pol force delOk p n pos v hv
    simp [walkVisit] at hv
    subst hv; exact posUnder_refl _
  · intro listable cs IH pol force delOk p n pos v hv
    have hsub : ∀ w : List Nat,
        w ∈ (walkChildren pol force delOk (.dir listable cs) cs pos 0).1.visited →
        posUnder pos w := by
      intro w hw
      obtain ⟨j, _, hu⟩ := IH pol force delOk (.dir listable cs) pos 0 w hw
      exact posUnder_trans (posUnder_extend pos [j]) hu
    simp only [walkVisit] at hv
    cases hrm : ruleFirstMatch (resolveName n) p <;> simp only [hrm] at hv
    · cases listable <;> simp at hv
      · subst hv; exact posUnder_refl _
      · rcases hv with rfl | hv
        · exact posUnder_refl _
        · exact hsub v hv
    · cases force <;> cases hdo : delOk pos <;> cases hdm : (pol.descendMatched && listable) <;>
        simp [hdo, hdm] at hv <;>
      first
      | (subst hv; exact posUnder_refl _)
      | (rcases hv with rfl | hv
         · exact posUnder_refl _
         · exact hsub v hv)
  · intro pol force delOk p pos k v hv
    simp [walkChildren] at hv
  · intro n t rest IHt IHrest pol force delOk p pos k v hv
    simp only [walkChildren] at hv
    cases hsk : pol.skipName n <;> simp only [hsk] at hv
    · cases hv2 : (walkVisit pol force delOk p n t (pos ++ [k])).2 <;>
        simp only [hv2] at hv <;>
        (simp at hv;
         rcases hv with hv | hv
         · exact ⟨k, le_refl k, IHt pol force delOk p n (pos ++ [k]) v hv⟩
         · obtain ⟨j, hj, hu⟩ := IHrest pol force delOk p pos (k + 1) v hv
           exact ⟨j, by omega, hu⟩)
    · simp at hv
      obtain ⟨j, hj, hu⟩ := IHrest pol force delOk p pos (k + 1) v hv
      exact ⟨j, by omega, hu⟩

/-- Every match reported by the walk of one entry lies at or under that
entry's position; in the child loop, under `pos ++ [j]` for some `j ≥ k`. -/
theorem walk_recs_under :
    (∀ t : Fs, ∀ pol force delOk p n pos,
      ∀ r ∈ (walkVisit pol force delOk p n t pos).1.recs, posUnder pos r.path) ∧
    (∀ cs : Entries, ∀ pol force delOk p pos k,
      ∀ r ∈ (walkChildren pol force delOk p cs pos k).1.recs,
        ∃ j, k ≤ j ∧ posUnder (pos ++ [j]) r.path) := by
  refine fsInd _ _ ?_ ?_ ?_ ?_
  · intro len metaOk pol force delOk p n pos r hr
    simp [walkVisit] at hr
  · intro listable cs IH pol force delOk p n pos r hr
    have hsub : ∀ r : MatchRec,
        r ∈ (walkChildren pol force delOk (.dir listable cs) cs pos 0).1.recs →
        posUnder pos r.path := by
      intro r hw
      obtain ⟨j, _, hu⟩ := IH pol force delOk (.dir listable cs) pos 0 r hw
      exact posUnder_trans (posUnder_extend pos [j]) hu
    simp only [walkVisit] at hr
    cases hrm : ruleFirstMatch (resolveName n) p <;> simp only [hrm] at hr
    · cases listable <;> simp at hr
      exact hsub r hr
    · cases force <;> cases hdo : delOk pos <;> cases hdm : (pol.descendMatched && listable) <;>
        simp [hdo, hdm] at hr <;>
      first
      | (subst hr; exact posUnder_refl _)
      | (rcases hr with rfl | hr
         · exact posUnder_refl _
         · exact hsub r hr)
  · intro pol force delOk p pos k r hr
    simp [walkChildren] at hr
  · intro n t rest IHt IHrest pol force delOk p pos k r hr
    simp only [walkChildren] at hr
    cases hsk : pol.skipName n <;> simp only [hsk] at hr
    · cases hv2 : (walkVisit pol force delOk p n t (pos ++ [k])).2 <;>
        simp only [hv2] at hr <;>
        (simp at hr;
         rcases hr with hr | hr
         · exact ⟨k, le_refl k, IHt pol force delOk p n (pos ++ [k]) r hr⟩
         · obtain ⟨j, hj, hu⟩ := IHrest pol force delOk p pos (k + 1) r hr
           exact ⟨j, by omega, hu⟩)
    · simp at hr
      obtain ⟨j, hj, hu⟩ := IHrest pol force delOk p pos (k + 1) r hr
      exact ⟨j, by omega, hu⟩

/-- The path of every reported match is itself a visited position. -/
theorem walk_recs_visited :
    (∀ t : Fs, ∀ pol force delOk p n pos,
      ∀ r ∈ (walkVisit pol force delOk p n t pos).1.recs,
        r.path ∈ (walkVisit pol force delOk p n t pos).1.visited) ∧
    (∀ cs : Entries, ∀ pol force delOk p pos k,
      ∀ r ∈ (walkChildren pol force delOk p cs pos k).1.recs,
        r.path ∈ (walkChildren pol force delOk p cs pos k).1.visited) := by
  refine fsInd _ _ ?_ ?_ ?_ ?_
  · intro len metaOk pol force delOk p n pos r hr
    simp [walkVisit] at hr
  · intro listable cs IH pol force delOk p n pos r hr
    have hsub := IH pol force delOk (.dir listable cs) pos 0
    simp only [walkVisit] at hr ⊢
    cases hrm : ruleFirstMatch (resolveName n) p <;> simp only [hrm] at hr ⊢
    · cases listable <;> simp at hr ⊢
      exact Or.inr (hsub r hr)
    · cases force <;> cases hdo : delOk pos <;> cases hdm : (pol.descendMatched && listable) <;>
        simp [hdo, hdm] at hr ⊢ <;>
      first
      | (subst hr; simp)
      | (rcases hr with rfl | hr
         · simp
         · exact Or.inr (hsub r hr))
  · intro pol force delOk p pos k r hr
    simp [walkChildren] at hr
  · intro n t rest IHt IHrest pol force delOk p pos k r hr
    simp only [walkChildren] at hr ⊢
    cases hsk : pol.skipName n <;> simp only [hsk] at hr ⊢
    · cases hv2 : (walkVisit pol force delOk p n t (pos ++ [k])).2 <;>
        simp only [hv2] at hr ⊢ <;>
        (simp at hr ⊢;
         rcases hr with hr | hr
         · exact Or.inl (IHt pol force delOk p n (pos ++ [k]) r hr)
         · exact Or.inr (IHrest pol force delOk p pos (k + 1) r hr))
    · simp at hr ⊢
      exact IHrest pol force delOk p pos (k + 1) r hr

theorem idx_eq_of_append_eq {pos : List Nat} {j k : Nat} (h : pos ++ [j] = pos ++ [k]) :
    j = k := by
  have := List.append_cancel_left h
  simpa using this

theorem append_cons_ne {pos : List Nat} {a : Nat} {b : List Nat} :
    pos ++ (a :: b) ≠ pos := by
  intro h
  have := congrArg List.length h
  rw [List.length_append, List.length_cons] at this
  omega

/-- Pruning: under a policy that never descends into a matched directory
(the parallel walker), no visited position lies strictly inside the path of
any reported match. -/
theorem walk_no_descend :
    (∀ t : Fs, ∀ pol, pol.descendMatched = false → ∀ force delOk p n pos,
      ∀ r ∈ (walkVisit pol force delOk p n t pos).1.recs,
      ∀ v ∈ (walkVisit pol force delOk p n t pos).1.visited,
        ¬ posStrictUnder r.path v) ∧
    (∀ cs : Entries, ∀ pol, pol.descendMatched = false → ∀ force delOk p pos k,
      ∀ r ∈ (walkChildren pol force delOk p cs pos k).1.recs,
      ∀ v ∈ (walkChildren pol force delOk p cs pos k).1.visited,
        ¬ posStrictUnder r.path v) := by
  refine fsInd _ _ ?_ ?_ ?_ ?_
  · intro len metaOk pol hpol force delOk p n pos r hr
    simp [walkVisit] at hr
  · intro listable cs IH pol hpol force delOk p n pos r hr v hv
    have hsub := IH pol hpol force delOk (.dir listable cs) pos 0
    have hrecs := walk_recs_under.2 cs pol force delOk (.dir listable cs) pos 0
    simp only [walkVisit] at hr hv
    cases hrm : ruleFirstMatch (resolveName n) p <;> simp only [hrm] at hr hv
    · cases listable <;> simp at hr hv
      rcases hv with rfl | hv
      · obtain ⟨j, _, hu⟩ := hrecs r hr
        have h1 := posUnder_length hu
        refine not_strict_under_of_le ?_
        rw [List.length_append] at h1
        simp at h1
        omega
      · exact hsub r hr v hv
    · cases force <;> cases hdo : delOk pos <;>
        simp [hdo, hpol, Bool.false_and] at hr hv <;>
        (subst hr; subst hv;
         exact not_strict_under_of_le (le_refl _))
  · intro pol hpol force delOk p pos k r hr
    simp [walkChildren] at hr
  · intro n t rest IHt IHrest pol hpol force delOk p pos k r hr v hv
    have hVu := walk_visited_under.1 t pol force delOk p n (pos ++ [k])
    have hRu := walk_recs_under.1 t pol force delOk p n (pos ++ [k])
    have hVuR := walk_visited_under.2 rest pol force delOk p pos (k + 1)
    have hRuR := walk_recs_under.2 rest pol force delOk p pos (k + 1)
    have hIHt := IHt pol hpol force delOk p n (pos ++ [k])
    have hIHr := IHrest pol hpol force delOk p pos (k + 1)
    simp only [walkChildren] at hr hv
    cases hsk : pol.skipName n <;> simp only [hsk] at hr hv
    · cases hv2 : (walkVisit pol force delOk p n t (pos ++ [k])).2 <;>
        simp only [hv2] at hr hv <;>
        (simp at hr hv;
         rcases hr with hr | hr <;> rcases hv with hv | hv
         · exact hIHt r hr v hv
         · intro hstrict
           obtain ⟨j, hj, hju⟩ := hVuR v hv
           have h1 : posUnder (pos ++ [k]) v :=
             posUnder_trans (hRu r hr) (posStrictUnder_posUnder hstrict)
           have := posUnder_idx h1 hju
           omega
         · intro hstrict
           obtain ⟨j, hj, hju⟩ := hRuR r hr
           have h1 : posUnder (pos ++ [j]) v :=
             posUnder_trans hju (posStrictUnder_posUnder hstrict)
           have := posUnder_idx h1 (hVu v hv)
           omega
         · exact hIHr r hr v hv)
    · simp at hr hv
      exact hIHr r hr v hv

/-- Under a pruning policy (the parallel walker) the matches found and the
positions visited do not depend on the mode or on which deletions succeed:
the match decisions are made before any deletion of that subtree. -/
theorem walk_mode_indep :
    (∀ t : Fs, ∀ pol, pol.descendMatched = false → ∀ f d f' d' p n pos,
      (walkVisit pol f d p n t pos).1.recs = (walkVisit pol f' d' p n t pos).1.recs ∧
      (walkVisit pol f d p n t pos).1.visited = (walkVisit pol f' d' p n t pos).1.visited) ∧
    (∀ cs : Entries, ∀ pol, pol.descendMatched = false → ∀ f d f' d' p pos k,
      (walkChildren pol f d p cs pos k).1.recs = (walkChildren pol f' d' p cs pos k).1.recs ∧
      (walkChildren pol f d p cs pos k).1.visited = (walkChildren pol f' d' p cs pos k).1.visited) := by
  refine fsInd _ _ ?_ ?_ ?_ ?_
  · intro len metaOk pol hpol f d f' d' p n pos
    simp [walkVisit]
  · intro listable cs IH pol hpol f d f' d' p n pos
    have hsub := IH pol hpol f d f' d' (.dir listable cs) pos 0
    simp only [walkVisit]
    cases hrm : ruleFirstMatch (resolveName n) p <;> simp only [hrm]
    · cases listable <;> simp [hsub.1, hsub.2]
    · cases f <;> cases f' <;> cases hdo : d pos <;> cases hdo' : d' pos <;>
        simp [hdo, hdo', hpol, Bool.false_and]
  · intro pol hpol f d f' d' p pos k
    simp [walkChildren]
  · intro n t rest IHt IHrest pol hpol f d f' d' p pos k
    have h1 := IHt pol hpol f d f' d' p n (pos ++ [k])
    have h2 := IHrest pol hpol f d f' d' p pos (k + 1)
    simp only [walkChildren]
    cases hsk : pol.skipName n
    · cases hv2 : (walkVisit pol f d p n t (pos ++ [k])).2 <;>
        cases hv2' : (walkVisit pol f' d' p n t (pos ++ [k])).2 <;>
        simp [hsk, hv2, hv2', h1.1, h1.2, h2.1, h2.2]
    · simp [hsk, h2.1, h2.2]

theorem sumSizes_nil : sumSizes [] = 0 := rfl

theorem sumSizes_cons (r : MatchRec) (l : List MatchRec) :
    sumSizes (r :: l) = r.size + sumSizes l := by
  simp [sumSizes]

theorem sumSizes_append (a b : List MatchRec) :
    sumSizes (a ++ b) = sumSizes a + sumSizes b := by
  simp [sumSizes]

/-- Accounting: the freed-bytes counter sums the sizes of exactly those
matches whose deletion succeeded (every match, in a dry run); the failure
reports are exactly the paths of the matches whose deletion failed; the
success counter counts exactly the successful deletions. -/
theorem walk_accounting :
    (∀ t : Fs, ∀ pol f d p n pos,
      (walkVisit pol f d p n t pos).1.freed =
        sumSizes (((walkVisit pol f d p n t pos).1.recs).filter (fun r => !f || d r.path)) ∧
      (walkVisit pol f d p n t pos).1.fails =
        (((walkVisit pol f d p n t pos).1.recs).filter (fun r => f && !(d r.path))).map MatchRec.path ∧
      (walkVisit pol f d p n t pos).1.cleaned =
        (((walkVisit pol f d p n t pos).1.recs).filter (fun r => f && d r.path)).length) ∧
    (∀ cs : Entries, ∀ pol f d p pos k,
      (walkChildren pol f d p cs pos k).1.freed =
        sumSizes (((walkChildren pol f d p cs pos k).1.recs).filter (fun r => !f || d r.path)) ∧
      (walkChildren pol f d p cs pos k).1.fails =
        (((walkChildren pol f d p cs pos k).1.recs).filter (fun r => f && !(d r.path))).map MatchRec.path ∧
      (walkChildren pol f d p cs pos k).1.cleaned =
        (((walkChildren pol f d p cs pos k).1.recs).filter (fun r => f && d r.path)).length) := by
  refine fsInd _ _ ?_ ?_ ?_ ?_
  · intro len metaOk pol f d p n pos
    simp [walkVisit, sumSizes]
  · intro listable cs IH pol f d p n pos
    have hsub := IH pol f d (.dir listable cs) pos 0
    simp only [walkVisit]
    cases hrm : ruleFirstMatch (resolveName n) p <;> simp only [hrm]
    · cases listable <;> simp [hsub.1, hsub.2.1, hsub.2.2, sumSizes]
    · cases f <;> cases hdo : d pos <;>
        cases hdm : (pol.descendMatched && listable) <;>
        simp [hdo, hdm, hsub.1, hsub.2.1, hsub.2.2, sumSizes_cons, sumSizes_nil,
          List.filter_cons]
  · intro pol f d p pos k
    simp [walkChildren, sumSizes]
  · intro n t rest IHt IHrest pol f d p pos k
    have h1 := IHt pol f d p n (pos ++ [k])
    have h2 := IHrest pol f d p pos (k + 1)
    simp only [walkChildren]
    cases hsk : pol.skipName n
    · cases hv2 : (walkVisit pol f d p n t (pos ++ [k])).2 <;>
        simp [hsk, hv2, h1.1, h1.2.1, h1.2.2, h2.1, h2.2.1, h2.2.2, sumSizes_append,
          List.filter_append]
    · simp [hsk, h2.1, h2.2.1, h2.2.2]

/-- A dry run modifies nothing: the node after the visit is the original
node, and the listing after the child loop is the original listing. -/
theorem walk_dry_tree :
    (∀ t : Fs, ∀ pol d p n pos, (walkVisit pol false d p n t pos).2 = some t) ∧
    (∀ cs : Entries, ∀ pol d p pos k, (walkChildren pol false d p cs pos k).2 = cs) := by
  refine fsInd _ _ ?_ ?_ ?_ ?_
  · intro len metaOk pol d p n pos
    simp [walkVisit]
  · intro listable cs IH pol d p n pos
    have hsub := IH pol d (.dir listable cs) pos 0
    simp only [walkVisit]
    cases hrm : ruleFirstMatch (resolveName n) p <;> simp only [hrm]
    · cases listable <;> simp [hsub]
    · cases hdm : (pol.descendMatched && listable) <;> simp [hdm, hsub]
  · intro pol d p pos k
    simp [walkChildren]
  · intro n t rest IHt IHrest pol d p pos k
    have h1 := IHt pol d p n (pos ++ [k])
    have h2 := IHrest pol d p pos (k + 1)
    simp only [walkChildren]
    cases hsk : pol.skipName n <;> simp [hsk, h1, h2]

theorem append_cons_eq (pos : List Nat) (a : Nat) (b : List Nat) :
    pos ++ (a :: b) = (pos ++ [a]) ++ b := by simp

/-- An entry whose name is rejected by the policy's filter is never
visited, nor is anything beneath it (`filter_entry` in `main.rs`, the
default hidden filter of the `ignore` walker in `clean.rs`). -/
theorem walk_skip_not_visited :
    (∀ t : Fs, ∀ pol f d p n pos sfx nm node,
      entryAt t sfx = some (nm, node) → pol.skipName nm = true →
      pos ++ sfx ∉ (walkVisit pol f d p n t pos).1.visited) ∧
    (∀ cs : Entries, ∀ pol f d p pos k m sfx nm node,
      entriesAt cs (m :: sfx) = some (nm, node) → pol.skipName nm = true →
      pos ++ ((k + m) :: sfx) ∉ (walkChildren pol f d p cs pos k).1.visited) := by
  refine fsInd _ _ ?_ ?_ ?_ ?_
  · intro len metaOk pol f d p n pos sfx nm node h hskip
    cases sfx <;> simp [entryAt] at h
  · intro listable cs IH pol f d p n pos sfx nm node h hskip
    cases sfx with
    | nil => simp [entryAt] at h
    | cons m rest' =>
      have h' : entriesAt cs (m :: rest') = some (nm, node) := h
      have hch := IH pol f d (.dir listable cs) pos 0 m rest' nm node h' hskip
      rw [Nat.zero_add] at hch
      simp only [walkVisit]
      cases hrm : ruleFirstMatch (resolveName n) p <;> simp only [hrm] <;>
        cases listable <;>
        cases f <;> cases hdo : d pos <;> cases hdm : pol.descendMatched <;>
        simp [hdo, hdm] <;>
      first
      | exact append_cons_ne
      | exact hch
  · intro pol f d p pos k m sfx nm node h hskip
    simp [entriesAt, entriesGet] at h
  · intro n t rest IHt IHrest pol f d p pos k m sfx nm node h hskip
    have hVuR := walk_visited_under.2 rest pol f d p pos (k + 1)
    have hVu := walk_visited_under.1 t pol f d p n (pos ++ [k])
    have hIdxR : ∀ w : List Nat, posUnder (pos ++ [k]) w →
        w ∉ (walkChildren pol f d p rest pos (k + 1)).1.visited := by
      intro w hw hin
      obtain ⟨j, hj, hju⟩ := hVuR w hin
      have := posUnder_idx hw hju
      omega
    simp only [walkChildren]
    cases m with
    | zero =>
      simp only [Nat.add_zero]
      cases sfx with
      | nil =>
        have h0 : (some (n, t) : Option (Option String × Fs)) = some (nm, node) := h
        have h1 : n = nm ∧ t = node := by simpa using h0
        have hskn : pol.skipName n = true := by rw [h1.1]; exact hskip
        simp only [hskn]
        simp
        exact hIdxR (pos ++ [k]) (posUnder_refl _)
      | cons s0 s' =>
        have h' : entryAt t (s0 :: s') = some (nm, node) := h
        have hmain := IHt pol f d p n (pos ++ [k]) (s0 :: s') nm node h' hskip
        have hup : posUnder (pos ++ [k]) (pos ++ (k :: s0 :: s')) :=
          ⟨s0 :: s', append_cons_eq pos k (s0 :: s')⟩
        have hR := hIdxR _ hup
        cases hsk : pol.skipName n <;> simp [hsk]
        · cases hv2 : (walkVisit pol f d p n t (pos ++ [k])).2 <;> simp [hv2] <;>
            (refine ⟨?_, hR⟩
             rw [append_cons_eq pos k (s0 :: s')]
             exact hmain)
        · exact hR
    | succ m' =>
      have h' : entriesAt rest (m' :: sfx) = some (nm, node) := h
      have hch := IHrest pol f d p pos (k + 1) m' sfx nm node h' hskip
      have hidx : k + (m' + 1) = (k + 1) + m' := by omega
      rw [hidx]
      have hT : pos ++ ((k + 1 + m') :: sfx) ∉ (walkVisit pol f d p n t (pos ++ [k])).1.visited := by
        intro hin
        have hun := hVu _ hin
        have h1 : posUnder (pos ++ [k + 1 + m']) (pos ++ ((k + 1 + m') :: sfx)) :=
          ⟨sfx, append_cons_eq pos (k + 1 + m') sfx⟩
        have := posUnder_idx hun h1
        omega
      cases hsk : pol.skipName n <;> simp [hsk]
      · cases hv2 : (walkVisit pol f d p n t (pos ++ [k])).2 <;> simp [hv2] <;>
          exact ⟨hT, hch⟩
      · exact hch

/-- The size walk undercounts at most: it never exceeds the full sum of
file lengths, and agrees with it when no entry is hidden-named. -/
theorem size_le_total :
    (∀ t : Fs, calculate_size t ≤ totalFileSize t ∧
      (noHidden t = true → calculate_size t = totalFileSize t)) ∧
    (∀ cs : Entries, sizeEntries cs ≤ totalEntries cs ∧
      (noHiddenEntries cs = true → sizeEntries cs = totalEntries cs)) := by
  refine fsInd _ _ ?_ ?_ ?_ ?_
  · intro len metaOk
    exact ⟨le_refl _, fun _ => rfl⟩
  · intro listable cs IH
    cases listable <;> simp [calculate_size, totalFileSize, noHidden]
    exact ⟨IH.1, IH.2⟩
  · exact ⟨le_refl _, fun _ => rfl⟩
  · intro n t rest IHt IHrest
    constructor
    · simp only [sizeEntries, totalEntries]
      cases hdn : dotName n <;> simp
      · have := IHt.1
        have := IHrest.1
        omega
      · have := IHt.1
        have := IHrest.1
        have hc : calculate_size t ≤ totalFileSize t := IHt.1
        omega
    · intro hnh
      simp only [noHiddenEntries, Bool.and_eq_true] at hnh
      obtain ⟨⟨hdn, hht⟩, hhr⟩ := hnh
      simp only [sizeEntries, totalEntries]
      rw [Bool.not_eq_true'] at hdn
      rw [hdn]
      simp [IHt.2 hht, IHrest.2 hhr]

/-- The glob loop accepts exactly the listings containing an entry (of any
kind) whose name has the given extension. -/
theorem entriesAnyExt_iff :
    ∀ cs : Entries, ∀ ext : String, (entriesAnyExt cs (some ext) = true ↔
      ∃ nm node, entryMemP nm node cs ∧ ∃ s, nm = some s ∧ pathExtension s = some ext) :=
  (fsInd (fun _ => True) (fun cs => ∀ ext : String, (entriesAnyExt cs (some ext) = true ↔
      ∃ nm node, entryMemP nm node cs ∧ ∃ s, nm = some s ∧ pathExtension s = some ext))
    (fun _ _ => trivial) (fun _ _ _ => trivial)
    (by intro ext; simp [entriesAnyExt, entryMemP])
    (by
      intro n t rest _ IHrest ext
      cases n with
      | none =>
        simp only [entriesAnyExt, entryMemP, Bool.or_eq_true, IHrest ext]
        constructor
        · rintro (h | ⟨nm, node, hmem, hs⟩)
          · simp at h
          · exact ⟨nm, node, Or.inr hmem, hs⟩
        · rintro ⟨nm, node, ⟨rfl, rfl⟩ | hmem, s, hnm, hext⟩
          · simp at hnm
          · exact Or.inr ⟨nm, node, hmem, s, hnm, hext⟩
      | some nm0 =>
        simp only [entriesAnyExt, entryMemP, Bool.or_eq_true, IHrest ext, beq_iff_eq]
        constructor
        · rintro (h | ⟨nm, node, hmem, hs⟩)
          · exact ⟨some nm0, t, Or.inl ⟨rfl, rfl⟩, nm0, rfl, by simpa using h⟩
          · exact ⟨nm, node, Or.inr hmem, hs⟩
        · rintro ⟨nm, node, ⟨rfl, rfl⟩ | hmem, s, hnm, hext⟩
          · left
            obtain rfl : nm0 = s := by simpa using hnm
            simp [hext]
          · exact Or.inr ⟨nm, node, hmem, s, hnm, hext⟩)).2

/-- The `exists()` check accepts exactly the listings containing an entry
(of any kind) with exactly the given name. -/
theorem entriesHasName_iff :
    ∀ cs : Entries, ∀ s : String, (entriesHasName cs s = true ↔
      ∃ node, entryMemP (some s) node cs) :=
  (fsInd (fun _ => True) (fun cs => ∀ s : String, (entriesHasName cs s = true ↔
      ∃ node, entryMemP (some s) node cs))
    (fun _ _ => trivial) (fun _ _ _ => trivial)
    (by intro s; simp [entriesHasName, entryMemP])
    (by
      intro n t rest _ IHrest s
      simp only [entriesHasName, entryMemP, Bool.or_eq_true, IHrest s, beq_iff_eq]
      constructor
      · rintro (rfl | ⟨node, hmem⟩)
        · exact ⟨t, Or.inl ⟨rfl, rfl⟩⟩
        · exact ⟨node, Or.inr hmem⟩
      · rintro ⟨node, ⟨hn, _⟩ | hmem⟩
        · exact Or.inl hn.symm
        · exact Or.inr ⟨node, hmem⟩)).2

/-- Removing every entry with the indicator's name makes the existence
check fail. -/
theorem eraseNamed_not_has :
    ∀ cs : Entries, ∀ s : String, entriesHasName (eraseNamed cs s) s = false :=
  (fsInd (fun _ => True) (fun cs => ∀ s : String, entriesHasName (eraseNamed cs s) s = false)
    (fun _ _ => trivial) (fun _ _ _ => trivial)
    (by intro s; simp [eraseNamed, entriesHasName])
    (by
      intro n t rest _ IHrest s
      simp only [eraseNamed]
      cases hn : (n == some s)
      · simp only [Bool.false_eq_true, if_false, entriesHasName, IHrest s, Bool.or_false]
        exact hn
      · simpa using IHrest s)).2

/-- The rule loop never fires for the empty resolved name: no rule's
`folder_name` is empty. -/
theorem ruleFirstMatch_empty (p : Fs) : ruleFirstMatch "" p = none := rfl

/-- The rule loop fires for a directory named `.venv` against any parent:
its rule has no indicator. -/
theorem ruleFirstMatch_venv (p : Fs) : ruleFirstMatch ".venv" p = some 4 := rfl

/-- Every branch of a matched visit reports the match at its own position
with the rule the loop selected. -/
theorem walkVisit_matched_head (pol : Policy) (f : Bool) (d : List Nat → Bool)
    (p : Fs) (n : Option String) (pos : List Nat) (listable : Bool) (cs : Entries)
    (ridx : Nat) (hrm : ruleFirstMatch (resolveName n) p = some ridx) :
    ∃ r ∈ (walkVisit pol f d p n (.dir listable cs) pos).1.recs,
      r.path = pos ∧ r.ruleIdx = ridx := by
  simp only [walkVisit, hrm]
  cases f <;> cases hdo : d pos <;> cases hdm : (pol.descendMatched && listable) <;>
    simp [hdo, hdm]

/-- Example tree: `proj/package.json`, `proj/node_modules/foo/package.json`,
`proj/node_modules/foo/node_modules` — a `node_modules` nested inside a
matched `node_modules`. -/
def exNested : Fs :=
  .dir true (.cons (some "proj") (.dir true
    (.cons (some "package.json") (.file 3 true)
    (.cons (some "node_modules") (.dir true
      (.cons (some "foo") (.dir true
        (.cons (some "package.json") (.file 2 true)
        (.cons (some "node_modules") (.dir true .nil) .nil)))
      .nil))
    .nil)))
  .nil)

/-- Example tree: a hidden `.git` directory and a hidden `.venv` directory
at the root. -/
def exVenv : Fs :=
  .dir true (.cons (some ".git") (.dir true (.cons (some "f") (.file 7 true) .nil))
    (.cons (some ".venv") (.dir true .nil) .nil))

/-- Example tree: a directory holding one hidden regular file of 5 bytes. -/
def exHidden : Fs := .dir true (.cons (some ".cache") (.file 5 true) .nil)

/-- Example tree: two independent matches (`a/target` under `a/Cargo.toml`,
`b/node_modules` under `b/package.json`). -/
def exTwo : Fs :=
  .dir true (.cons (some "a") (.dir true
    (.cons (some "Cargo.toml") (.file 1 true)
    (.cons (some "target") (.dir true (.cons (some "out") (.file 10 true) .nil)) .nil)))
  (.cons (some "b") (.dir true
    (.cons (some "package.json") (.file 1 true)
    (.cons (some "node_modules") (.dir true (.cons (some "g") (.file 20 true) .nil)) .nil)))
  .nil))

/-- Example listing: a directory (not a file) named `app.csproj` next to a
`bin` directory. -/
def cs8 : Entries :=
  .cons (some "app.csproj") (.dir true .nil) (.cons (some "bin") (.dir true .nil) .nil)

/-- Example listing: a `package.json` file next to a `node_modules`
directory. -/
def cs9 : Entries :=
  .cons (some "package.json") (.file 4 true) (.cons (some "node_modules") (.dir true .nil) .nil)

/-- Modelled from the spec: a regular *file* (not merely an entry) with
exactly the given name exists directly in the listing — the reading under
which claim C9 states the exact-indicator test. -/
def anyFileNamed : Entries → String → Bool
  | .nil, _ => false
  | .cons n t rest, s =>
    (match t, n with
     | .file _ _, some nm => nm == s
     | _, _ => false) || anyFileNamed rest s

/-- Example listing: a directory (not a file) named `package.json` next to
a `node_modules` directory. -/
def cs9d : Entries :=
  .cons (some "package.json") (.dir true .nil) (.cons (some "node_modules") (.dir true .nil) .nil)

/-- C1, amended: the parallel walker (`clean.rs`) prunes — in both modes and
under any deletion outcome, no visited position, and in particular no other
reported match, lies strictly inside the path of a reported match.  (The
sequential walker of `main.rs` does not prune on a dry-run match; see the
counterexample.) -/
theorem claim1_thm : ∀ (t : Fs) (force : Bool) (d : List Nat → Bool),
    (∀ r ∈ (runScan parPolicy force d t).1.recs,
      ∀ v ∈ (runScan parPolicy force d t).1.visited, ¬ posStrictUnder r.path v) ∧
    (∀ r ∈ (runScan parPolicy force d t).1.recs,
      ∀ r' ∈ (runScan parPolicy force d t).1.recs, ¬ posStrictUnder r.path r'.path) := by
  intro t force d
  cases t with
  | file len metaOk => simp [runScan]
  | dir listable cs =>
    cases listable
    · simp [runScan]
    · constructor
      · intro r hr v hv
        rcases List.mem_cons.mp hv with rfl | hv'
        · exact not_strict_under_of_le (by simp)
        · exact walk_no_descend.2 cs parPolicy rfl force d (.dir true cs) [] 0 r hr v hv'
      · intro r hr r' hr'
        have hv := walk_recs_visited.2 cs parPolicy force d (.dir true cs) [] 0 r' hr'
        exact walk_no_descend.2 cs parPolicy rfl force d (.dir true cs) [] 0 r hr r'.path hv

/-- C1 counterexample: on `exNested`, the sequential walker in dry-run mode
reports the nested `node_modules` at `[0,1,0,1]`, strictly inside the
already-matched directory `[0,1]`, and visits positions inside the matched
directory — the claim fails for that implementation of the scan. -/
theorem claim1_cex :
    (runScan seqPolicy false noDel exNested).1.recs.map MatchRec.path =
      [[0, 1], [0, 1] ++ [0, 1]] ∧
    posStrictUnder [0, 1] ([0, 1] ++ [0, 1]) ∧
    ([0, 1] ++ [0, 1]) ∈ (runScan seqPolicy false noDel exNested).1.visited ∧
    posStrictUnder [0, 1] ([0, 1] ++ [0]) ∧
    ([0, 1] ++ [0]) ∈ (runScan seqPolicy false noDel exNested).1.visited := by
  refine ⟨by decide, ⟨[0, 1], by decide, rfl⟩, by decide, ⟨[0], by decide, rfl⟩, by decide⟩

/-- C1 witness: the pruning theorem applied on `exNested` to the reported
match `[0,1]` and two concrete visited positions. -/
theorem claim1_wit :
    ¬ posStrictUnder ([0, 1] : List Nat) [0, 0] ∧
    ¬ posStrictUnder ([0, 1] : List Nat) [0, 1] := by
  constructor
  · exact (claim1_thm exNested false noDel).1 ⟨[0, 1], 0, 2⟩ (by decide) [0, 0] (by decide)
  · exact (claim1_thm exNested false noDel).2 ⟨[0, 1], 0, 2⟩ (by decide) ⟨[0, 1], 0, 2⟩ (by decide)

/-- C2: a dry run is side-effect-free — under every policy it leaves the
tree unchanged and reports no deletion failures — and, for the parallel
walker that reports sizes, the dry-run potential total equals the total the
force mode reports as reclaimed when every deletion succeeds. -/
theorem claim2_thm : ∀ (pol : Policy) (d : List Nat → Bool) (t : Fs),
    (runScan pol false d t).2 = t ∧
    (runScan pol false d t).1.fails = [] ∧
    (runScan parPolicy false d t).1.freed = (runScan parPolicy true allDel t).1.freed := by
  intro pol d t
  refine ⟨?_, ?_, ?_⟩
  · cases t with
    | file len metaOk => rfl
    | dir listable cs =>
      cases listable
      · rfl
      · show Fs.dir true (walkChildren pol false d (.dir true cs) cs [] 0).2 = Fs.dir true cs
        rw [walk_dry_tree.2 cs pol d (.dir true cs) [] 0]
  · cases t with
    | file len metaOk => rfl
    | dir listable cs =>
      cases listable
      · rfl
      · show (walkChildren pol false d (.dir true cs) cs [] 0).1.fails = []
        rw [(walk_accounting.2 cs pol false d (.dir true cs) [] 0).2.1]
        simp
  · cases t with
    | file len metaOk => rfl
    | dir listable cs =>
      cases listable
      · rfl
      · show (walkChildren parPolicy false d (.dir true cs) cs [] 0).1.freed =
          (walkChildren parPolicy true allDel (.dir true cs) cs [] 0).1.freed
        rw [(walk_accounting.2 cs parPolicy false d (.dir true cs) [] 0).1,
          (walk_accounting.2 cs parPolicy true allDel (.dir true cs) [] 0).1,
          (walk_mode_indep.2 cs parPolicy rfl false d true allDel (.dir true cs) [] 0).1]
        simp [allDel]

/-- C3: in force mode, the freed total of the parallel walker sums the
sizes of exactly the matches whose deletion succeeded, the failure reports
are exactly the paths of the matches whose deletion failed, the set of
matches found does not depend on which deletions fail (a failure is never
fatal), and the sequential walker's final cleaned-folder count counts
exactly the successful deletions. -/
theorem claim3_thm : ∀ (t : Fs) (d : List Nat → Bool),
    (runScan parPolicy true d t).1.freed =
      sumSizes (((runScan parPolicy true d t).1.recs).filter (fun r => d r.path)) ∧
    (runScan parPolicy true d t).1.fails =
      (((runScan parPolicy true d t).1.recs).filter (fun r => !(d r.path))).map MatchRec.path ∧
    (runScan parPolicy true d t).1.recs = (runScan parPolicy false d t).1.recs ∧
    (runScan seqPolicy true d t).1.cleaned =
      (((runScan seqPolicy true d t).1.recs).filter (fun r => d r.path)).length := by
  intro t d
  have hp1 : (fun r : MatchRec => !true || d r.path) = fun r => d r.path := by
    funext r; simp
  have hp2 : (fun r : MatchRec => true && !(d r.path)) = fun r => !(d r.path) := by
    funext r; simp
  have hp3 : (fun r : MatchRec => true && d r.path) = fun r => d r.path := by
    funext r; simp
  cases t with
  | file len metaOk => exact ⟨rfl, rfl, rfl, rfl⟩
  | dir listable cs =>
    cases listable
    · exact ⟨rfl, rfl, rfl, rfl⟩
    · refine ⟨?_, ?_, ?_, ?_⟩
      · show (walkChildren parPolicy true d (.dir true cs) cs [] 0).1.freed =
          sumSizes (((walkChildren parPolicy true d (.dir true cs) cs [] 0).1.recs).filter
            (fun r => d r.path))
        rw [(walk_accounting.2 cs parPolicy true d (.dir true cs) [] 0).1, hp1]
      · show (walkChildren parPolicy true d (.dir true cs) cs [] 0).1.fails =
          (((walkChildren parPolicy true d (.dir true cs) cs [] 0).1.recs).filter
            (fun r => !(d r.path))).map MatchRec.path
        rw [(walk_accounting.2 cs parPolicy true d (.dir true cs) [] 0).2.1, hp2]
      · show (walkChildren parPolicy true d (.dir true cs) cs [] 0).1.recs =
          (walkChildren parPolicy false d (.dir true cs) cs [] 0).1.recs
        exact (walk_mode_indep.2 cs parPolicy rfl true d false d (.dir true cs) [] 0).1
      · show (walkChildren seqPolicy true d (.dir true cs) cs [] 0).1.cleaned =
          (((walkChildren seqPolicy true d (.dir true cs) cs [] 0).1.recs).filter
            (fun r => d r.path)).length
        rw [(walk_accounting.2 cs seqPolicy true d (.dir true cs) [] 0).2.2, hp3]

/-- C3 witness: the accounting theorem applied to `exTwo` with an oracle
that fails the deletion of `a/target` and allows `b/node_modules`: the run
reclaims only the 20 bytes of the successful deletion, reports the failure
at `[0,1]`, still finds both matches, and the sequential count is 1. -/
theorem claim3_wit :
    (runScan parPolicy true (fun q => q == [1, 1]) exTwo).1.freed = 20 ∧
    (runScan parPolicy true (fun q => q == [1, 1]) exTwo).1.fails = [[0, 1]] ∧
    (runScan parPolicy true (fun q => q == [1, 1]) exTwo).1.recs.length = 2 ∧
    (runScan seqPolicy true (fun q => q == [1, 1]) exTwo).1.cleaned = 1 := by
  have h := claim3_thm exTwo (fun q => q == [1, 1])
  refine ⟨?_, ?_, by decide, ?_⟩
  · rw [h.1]; decide
  · rw [h.2.1]; decide
  · rw [h.2.2.2]; decide

/-- C4, amended: the parallel walker's aggregate is schedule-independent —
folding its per-match records in any completion order yields the same match
count and the same byte total — so a sequential execution of the same walk
gives the same logical result.  (The repository's separate sequential
implementation in `main.rs` is not equivalent to it; see the
counterexample.) -/
theorem claim4_thm (t : Fs) (force : Bool) (d : List Nat → Bool) (l : List MatchRec)
    (h : l.Perm ((runScan parPolicy force d t).1.recs)) :
    l.length = (runScan parPolicy force d t).1.recs.length ∧
    sumSizes l = sumSizes ((runScan parPolicy force d t).1.recs) :=
  ⟨h.length_eq, by simpa [sumSizes] using (h.map MatchRec.size).sum_eq⟩

/-- C4 counterexample: on `exNested` the sequential walk (`main.rs`) and
the parallel walk (`clean.rs`) do not produce the same logical result: the
sequential dry run reports two matches, the parallel one reports one (and
only the parallel variant accumulates a byte total at all). -/
theorem claim4_cex :
    (runScan seqPolicy false noDel exNested).1.recs.length = 2 ∧
    (runScan parPolicy false noDel exNested).1.recs.length = 1 ∧
    (runScan seqPolicy false noDel exNested).1.freed = 0 ∧
    (runScan parPolicy false noDel exNested).1.freed = 2 := by
  decide

/-- C4 witness: the schedule-independence theorem applied to `exTwo` and
the reversed completion order of its two matches. -/
theorem claim4_wit :
    ([⟨[1, 1], 0, 20⟩, ⟨[0, 1], 1, 10⟩] : List MatchRec).length =
      (runScan parPolicy false noDel exTwo).1.recs.length ∧
    sumSizes [⟨[1, 1], 0, 20⟩, ⟨[0, 1], 1, 10⟩] =
      sumSizes ((runScan parPolicy false noDel exTwo).1.recs) :=
  claim4_thm exTwo false noDel [⟨[1, 1], 0, 20⟩, ⟨[0, 1], 1, 10⟩] (by decide)

/-- C5, amended: the sequential walker (`main.rs`) never visits an entry
whose name begins with `'.'` other than the literal `.venv`, and a
directory named `.venv` is evaluated against the rules and matched (its
rule, index 4, has no indicator); the parallel walker (`clean.rs`),
however, relies on its walk library's default hidden filter and never
visits any entry whose name begins with `'.'`, including `.venv` — no
carve-out exists there. -/
theorem claim5_thm : ∀ (force : Bool) (d : List Nat → Bool),
    (∀ t pos nm node, entryAt t pos = some (nm, node) →
      dotName nm = true → resolveName nm ≠ ".venv" →
      pos ∉ (runScan seqPolicy force d t).1.visited) ∧
    (∀ (p : Fs) (listable : Bool) (cs : Entries) (pos : List Nat),
      ∃ r ∈ (walkVisit seqPolicy force d p (some ".venv") (.dir listable cs) pos).1.recs,
        r.path = pos ∧ r.ruleIdx = 4) ∧
    (∀ t pos nm node, entryAt t pos = some (nm, node) →
      dotName nm = true →
      pos ∉ (runScan parPolicy force d t).1.visited) := by
  intro force d
  refine ⟨?_, ?_, ?_⟩
  · intro t pos nm node h hdot hnv
    cases pos with
    | nil => simp [entryAt] at h
    | cons m rest =>
      cases t with
      | file len metaOk => simp [entryAt] at h
      | dir listable cs =>
        cases listable
        · intro hin
          simp [runScan] at hin
        · have h' : entriesAt cs (m :: rest) = some (nm, node) := h
          have hskip : seqPolicy.skipName nm = true := by
            show (dotName nm && !(resolveName nm == ".venv")) = true
            rw [hdot, beq_eq_false_iff_ne.mpr hnv]
            rfl
          intro hin
          rcases List.mem_cons.mp hin with heq | hin'
          · exact List.cons_ne_nil m rest heq
          · have hx := walk_skip_not_visited.2 cs seqPolicy force d (.dir true cs) [] 0
              m rest nm node h' hskip
            simp only [List.nil_append, Nat.zero_add] at hx
            exact hx hin'
  · intro p listable cs pos
    exact walkVisit_matched_head seqPolicy force d p (some ".venv") pos listable cs 4
      (ruleFirstMatch_venv p)
  · intro t pos nm node h hdot
    cases pos with
    | nil => simp [entryAt] at h
    | cons m rest =>
      cases t with
      | file len metaOk => simp [entryAt] at h
      | dir listable cs =>
        cases listable
        · intro hin
          simp [runScan] at hin
        · have h' : entriesAt cs (m :: rest) = some (nm, node) := h
          have hskip : parPolicy.skipName nm = true := hdot
          intro hin
          rcases List.mem_cons.mp hin with heq | hin'
          · exact List.cons_ne_nil m rest heq
          · have hx := walk_skip_not_visited.2 cs parPolicy force d (.dir true cs) [] 0
              m rest nm node h' hskip
            simp only [List.nil_append, Nat.zero_add] at hx
            exact hx hin'

/-- C5 counterexample: on `exVenv` the parallel walker visits only the root
— the hidden `.venv` directory at position `[1]` is filtered out, never
evaluated, and never matched, although its rule exists and the sequential
walker does match it.  The claimed `.venv` carve-out does not hold for that
traversal. -/
theorem claim5_cex :
    (runScan parPolicy false noDel exVenv).1.visited = [[]] ∧
    (runScan parPolicy false noDel exVenv).1.recs = [] ∧
    (runScan seqPolicy false noDel exVenv).1.recs.map MatchRec.path = [[1]] := by
  decide

/-- C5 witness: the hidden-handling theorem applied on `exVenv` — the
hidden `.git` entry at `[0]` is unvisited by the sequential walker, a
`.venv` directory is matched by the sequential rule loop at a concrete
position, and the `.venv` entry at `[1]` is unvisited by the parallel
walker. -/
theorem claim5_wit :
    ([0] ∉ (runScan seqPolicy false noDel exVenv).1.visited) ∧
    (∃ r ∈ (walkVisit seqPolicy false noDel (Fs.dir true .nil) (some ".venv")
        (Fs.dir true .nil) [2]).1.recs, r.path = [2] ∧ r.ruleIdx = 4) ∧
    ([1] ∉ (runScan parPolicy false noDel exVenv).1.visited) := by
  obtain ⟨h1, h2, h3⟩ := claim5_thm false noDel
  refine ⟨?_, h2 (Fs.dir true .nil) true .nil [2], ?_⟩
  · exact h1 exVenv [0] (some ".git") (Fs.dir true (.cons (some "f") (.file 7 true) .nil))
      rfl rfl (by decide)
  · exact h3 exVenv [1] (some ".venv") (Fs.dir true .nil) rfl rfl

/-- C6, amended: `calculate_size` sums the apparent lengths of the regular
files its walker visits; because the walk applies the library's default
filters, entries whose name begins with `'.'` (and anything beneath them)
are not counted, so the result is a lower bound of the full per-file sum,
with equality when no entry under the path is hidden-named; unreadable
files and unenumerable directories contribute 0 in both sums. -/
theorem claim6_thm (t : Fs) : calculate_size t ≤ totalFileSize t ∧
    (noHidden t = true → calculate_size t = totalFileSize t) :=
  size_le_total.1 t

/-- C6 counterexample: a directory holding a single hidden 5-byte regular
file.  `calculate_size` reports 0, but the sum of the apparent lengths of
every regular file under the path is 5 — the claimed equality fails. -/
theorem claim6_cex : calculate_size exHidden = 0 ∧ totalFileSize exHidden = 5 := by
  decide

/-- C6 witness: the size theorem applied to `exNested`, which has no hidden
entries, giving the exact equality. -/
theorem claim6_wit : calculate_size exNested = totalFileSize exNested :=
  (claim6_thm exNested).2 rfl

/-- C7, amended: an absent root and a non-directory root fail with distinct
path errors before any traversal (no position is visited, nothing is
matched), and a directory root scans with no path error; but the process
exit status is 0 in every case — including the invalid-root cases — because
`main` returns unit, never a failure status. -/
theorem claim7_thm : ∀ (force : Bool) (d : List Nat → Bool),
    ((rs_clean_main seqPolicy force d none).pathError = some PathErr.missing ∧
     (rs_clean_main seqPolicy force d none).out.visited = [] ∧
     (rs_clean_main seqPolicy force d none).out.recs = [] ∧
     (rs_clean_main seqPolicy force d none).exitCode = 0) ∧
    (∀ len metaOk,
     (rs_clean_main seqPolicy force d (some (.file len metaOk))).pathError =
        some PathErr.notDir ∧
     (rs_clean_main seqPolicy force d (some (.file len metaOk))).out.visited = [] ∧
     (rs_clean_main seqPolicy force d (some (.file len metaOk))).out.recs = [] ∧
     (rs_clean_main seqPolicy force d (some (.file len metaOk))).exitCode = 0) ∧
    (∀ listable cs,
     (rs_clean_main seqPolicy force d (some (.dir listable cs))).pathError = none ∧
     (rs_clean_main seqPolicy force d (some (.dir listable cs))).exitCode = 0) :=
  fun _ _ => ⟨⟨rfl, rfl, rfl, rfl⟩, fun _ _ => ⟨rfl, rfl, rfl, rfl⟩, fun _ _ => ⟨rfl, rfl⟩⟩

/-- C7 counterexample: for a missing root the run reports the path error
but the process exit status is 0, not non-zero as the claim requires. -/
theorem claim7_cex :
    (rs_clean_main seqPolicy false noDel none).pathError = some PathErr.missing ∧
    (rs_clean_main seqPolicy false noDel none).exitCode = 0 :=
  ⟨rfl, rfl⟩

/-- C8, amended: for a `*.ext` glob indicator, a readable parent listing
matches iff it contains at least one directory *entry* — of any kind, file
or directory — whose name has extension `ext` (case-sensitive,
non-recursive); a parent whose listing cannot be enumerated is treated as
no match. -/
theorem claim8_thm (ind ext : String) (hstar : hasStar ind = true)
    (hglob : globExt ind = some ext) (cs : Entries) :
    (matches_indicator (.dir true cs) ind = true ↔
      ∃ nm node, entryMemP nm node cs ∧ ∃ s, nm = some s ∧ pathExtension s = some ext) ∧
    (∀ cs' : Entries, matches_indicator (.dir false cs') ind = false) := by
  constructor
  · rw [show matches_indicator (.dir true cs) ind = entriesAnyExt cs (globExt ind) by
      simp [matches_indicator, hstar], hglob]
    exact entriesAnyExt_iff cs ext
  · intro cs'
    simp [matches_indicator, hstar]

/-- C8 counterexample: a parent listing whose only `.csproj`-named child is
a directory.  The glob test accepts it, yet no *file* with extension
`csproj` exists directly in the parent — the claim's iff fails in the
direction it states. -/
theorem claim8_cex :
    matches_indicator (Fs.dir true cs8) "*.csproj" = true ∧
    anyFileWithExt cs8 "csproj" = false := by
  decide

/-- C8 witness: the glob theorem applied to the indicator `*.csproj` and
the listing `cs8`, in both directions, plus the unreadable-parent case. -/
theorem claim8_wit :
    matches_indicator (Fs.dir true cs8) "*.csproj" = true ∧
    matches_indicator (Fs.dir false cs8) "*.csproj" = false := by
  have h := claim8_thm "*.csproj" "csproj" rfl rfl cs8
  exact ⟨h.1.mpr ⟨some "app.csproj", .dir true .nil, Or.inl ⟨rfl, rfl⟩,
    "app.csproj", rfl, rfl⟩, h.2 cs8⟩

/-- C9, amended: for an exact-filename indicator (no wildcard), a
candidate's parent matches iff a directory *entry* of any kind — file or
directory — with exactly that name exists directly inside it
(`Path::exists` on the joined path checks no file type), independently of
whether the parent can be enumerated; removing every entry with the
indicator's name flips the classification to non-match. -/
theorem claim9_thm (ind : String) (hstar : hasStar ind = false) (listable : Bool)
    (cs : Entries) :
    (matches_indicator (.dir listable cs) ind = true ↔
      ∃ node, entryMemP (some ind) node cs) ∧
    matches_indicator (.dir listable (eraseNamed cs ind)) ind = false := by
  constructor
  · rw [show matches_indicator (.dir listable cs) ind = entriesHasName cs ind by
      simp [matches_indicator, hstar]]
    exact entriesHasName_iff cs ind
  · rw [show matches_indicator (.dir listable (eraseNamed cs ind)) ind =
      entriesHasName (eraseNamed cs ind) ind by simp [matches_indicator, hstar]]
    exact eraseNamed_not_has cs ind

/-- C9 counterexample: a parent listing whose only `package.json`-named
child is a directory.  The existence check accepts it, yet no regular
*file* with that exact name exists directly in the parent — the claim's
iff fails in the direction it states. -/
theorem claim9_cex :
    matches_indicator (Fs.dir true cs9d) "package.json" = true ∧
    anyFileNamed cs9d "package.json" = false := by
  decide

/-- C9 witness: the exact-indicator theorem applied to `package.json` and
the listing `cs9`: the indicator file's presence gives a match, and erasing
it flips the classification. -/
theorem claim9_wit :
    matches_indicator (Fs.dir true cs9) "package.json" = true ∧
    matches_indicator (Fs.dir true (eraseNamed cs9 "package.json")) "package.json" = false := by
  have h := claim9_thm "package.json" rfl true cs9
  exact ⟨h.1.mpr ⟨.file 4 true, Or.inl ⟨rfl, rfl⟩⟩, h.2⟩

/-- C10: a visited directory whose base name is absent or not valid UTF-8
resolves to the empty string; no rule's folder name is empty, so the rule
loop returns no match against any parent, neither walker's filter skips
such an entry, and both walkers traverse it normally — its visit reports
exactly the matches of its children, with the entry itself visited and
unmatched. -/
theorem claim10_thm : ∀ (p : Fs) (force : Bool) (d : List Nat → Bool) (cs : Entries)
    (pos : List Nat),
    resolveName none = "" ∧
    ruleFirstMatch (resolveName none) p = none ∧
    parPolicy.skipName none = false ∧
    seqPolicy.skipName none = false ∧
    (walkVisit parPolicy force d p none (.dir true cs) pos).1.recs =
      (walkChildren parPolicy force d (.dir true cs) cs pos 0).1.recs ∧
    (walkVisit parPolicy force d p none (.dir true cs) pos).1.visited =
      pos :: (walkChildren parPolicy force d (.dir true cs) cs pos 0).1.visited ∧
    (walkVisit seqPolicy force d p none (.dir true cs) pos).1.recs =
      (walkChildren seqPolicy force d (.dir true cs) cs pos 0).1.recs ∧
    (walkVisit seqPolicy force d p none (.dir true cs) pos).1.visited =
      pos :: (walkChildren seqPolicy force d (.dir true cs) cs pos 0).1.visited :=
  fun _ _ _ _ _ => ⟨rfl, rfl, rfl, rfl, rfl, rfl, rfl, rfl⟩
